import Mathlib

/-!
Shallow embedding of `src/roads2csv.rs` (fschutt/index2csv).

The Rust module deduplicates street-name/grid-position records into a
`BTreeMap<StreetName, BTreeSet<GridPosition>>`, classifies each street by the
cardinality of its position set, and renders the two resulting collections as
CRLF-joined delimiter-separated text.

Modelling choices:
 - `BTreeSet<GridPosition>` is modelled as a strictly `<`-sorted `List GridPosition`;
   `BTreeSet::insert` becomes `insertPos` (sorted insertion that skips an
   already-present element).
 - `BTreeMap<K, V>` is modelled as a strictly key-sorted association list;
   `entry(..).or_insert_with(BTreeSet::new).insert(pos)` becomes `insertRoad`,
   and plain `BTreeMap::insert` becomes `insertMap`.
 - Rust `String` ordering (byte-wise lexicographic on UTF-8) coincides with
   Lean's `String` ordering (codepoint lexicographic), since UTF-8 byte order
   agrees with codepoint order.
 - `format!`/`Display` becomes `String` concatenation, and `Vec<String>::join`
   becomes `joinStrings`.
-/

namespace Roads2Csv

/-- `StreetName` — name of one street (`pub struct StreetName(pub String)`). -/
structure StreetName where
  name : String
deriving DecidableEq

/-- `GridPosition` — grid position such as "A9" (`column: String, row: usize`). -/
structure GridPosition where
  column : String
  row : Nat
deriving DecidableEq

/-- `InputStreetValue` — one raw input record. -/
structure InputStreetValue where
  street_name : StreetName
  position : GridPosition
deriving DecidableEq

/-- Kernel-reducible decision procedure for `String` order (the ambient
`String.decidableLT` is iterator-based and does not reduce in the kernel). -/
instance (priority := 2000) decStringLt (s t : String) : Decidable (s < t) :=
  decidable_of_iff (s.data < t.data) String.lt_iff_toList_lt.symm

/-- Rust's `derive(Ord)` on `StreetName` compares the wrapped strings. -/
instance : LT StreetName := ⟨fun a b => a.name < b.name⟩

instance (a b : StreetName) : Decidable (a < b) :=
  inferInstanceAs (Decidable (a.name < b.name))

/-- Rust's `derive(Ord)` on `GridPosition` is lexicographic by declaration
order of the fields: `column` first, then `row`. -/
instance : LT GridPosition :=
  ⟨fun a b => a.column < b.column ∨ (a.column = b.column ∧ a.row < b.row)⟩

instance (a b : GridPosition) : Decidable (a < b) :=
  inferInstanceAs (Decidable (a.column < b.column ∨ (a.column = b.column ∧ a.row < b.row)))

/-- `BTreeSet<GridPosition>::insert` on the sorted-list model: sorted insertion
that leaves the set unchanged when the element is already present. -/
def insertPos (p : GridPosition) : List GridPosition → List GridPosition
  | [] => [p]
  | q :: qs =>
    if p < q then p :: q :: qs
    else if p = q then q :: qs
    else q :: insertPos p qs

/-- `BTreeMap::entry(name).or_insert_with(BTreeSet::new).insert(position)` on the
sorted association-list model (the loop body of `from_streets`). -/
def insertRoad (n : StreetName) (p : GridPosition) :
    List (StreetName × List GridPosition) → List (StreetName × List GridPosition)
  | [] => [(n, [p])]
  | (m, ps) :: rest =>
    if n < m then (n, [p]) :: (m, ps) :: rest
    else if n = m then (m, insertPos p ps) :: rest
    else (m, ps) :: insertRoad n p rest

/-- `BTreeMap::insert` (replacing any existing value) on the sorted
association-list model; used by `process` for its two output maps. -/
def insertMap {β : Type} (n : StreetName) (v : β) :
    List (StreetName × β) → List (StreetName × β)
  | [] => [(n, v)]
  | (m, w) :: rest =>
    if n < m then (n, v) :: (m, w) :: rest
    else if n = m then (m, v) :: rest
    else (m, w) :: insertMap n v rest

/-- `DeduplicatedRoads` — `roads: BTreeMap<StreetName, BTreeSet<GridPosition>>`. -/
structure DeduplicatedRoads where
  roads : List (StreetName × List GridPosition)
deriving DecidableEq

/-- `DeduplicatedRoads::from_streets`: fold the input, inserting each record's
position into the set keyed by its street name. -/
def DeduplicatedRoads.from_streets (streets : List InputStreetValue) : DeduplicatedRoads :=
  DeduplicatedRoads.mk
    (streets.foldl (fun acc s => insertRoad s.street_name s.position acc) [])

/-- `FinalizedGridPositon` (sic) — grid positions spanning at most two cells. -/
inductive FinalizedGridPositon where
  | SingleRect : GridPosition → FinalizedGridPositon
  | TwoRect : GridPosition → GridPosition → FinalizedGridPositon
deriving DecidableEq

/-- `ProcessedRoad` — road name spanning 1 or 2 grid cells. -/
structure ProcessedRoad where
  name : StreetName
  position : FinalizedGridPositon
deriving DecidableEq

/-- `UnprocessedRoad` — road name spanning 3 or more grid cells. -/
structure UnprocessedRoad where
  name : StreetName
  positions : List GridPosition
deriving DecidableEq

/-- `ProcessedRoadNames` — wrapper for `Vec<ProcessedRoad>`. -/
structure ProcessedRoadNames where
  processed : List ProcessedRoad
deriving DecidableEq

/-- `UnprocessedRoadNames` — wrapper for `Vec<UnprocessedRoad>`. -/
structure UnprocessedRoadNames where
  unprocessed : List UnprocessedRoad
deriving DecidableEq

/-- The loop body of `DeduplicatedRoads::process`: route one map entry by the
cardinality of its position set into the pair of accumulator maps. -/
def processStep
    (acc : List (StreetName × FinalizedGridPositon) × List (StreetName × List GridPosition))
    (e : StreetName × List GridPosition) :
    List (StreetName × FinalizedGridPositon) × List (StreetName × List GridPosition) :=
  match e.2 with
  | [] => acc
  | [p] => (insertMap e.1 (FinalizedGridPositon.SingleRect p) acc.1, acc.2)
  | [p, q] => (insertMap e.1 (FinalizedGridPositon.TwoRect p q) acc.1, acc.2)
  | ps => (acc.1, insertMap e.1 ps acc.2)

/-- `DeduplicatedRoads::process`: partition the grouping into processed
(1–2 positions) and unprocessed (3+ positions) collections. -/
def DeduplicatedRoads.process (d : DeduplicatedRoads) :
    ProcessedRoadNames × UnprocessedRoadNames :=
  let maps := d.roads.foldl processStep ([], [])
  (ProcessedRoadNames.mk (maps.1.map fun kv => ProcessedRoad.mk kv.1 kv.2),
   UnprocessedRoadNames.mk (maps.2.map fun kv => UnprocessedRoad.mk kv.1 kv.2))

/-- `Vec<String>::join(sep)`. -/
def joinStrings (sep : String) : List String → String
  | [] => ""
  | [s] => s
  | s :: rest => s ++ sep ++ joinStrings sep rest

/-- `Display for StreetName`: the wrapped string. -/
def StreetName.display (s : StreetName) : String := s.name

/-- `Display for GridPosition`: `"{column}{row}"`. -/
def GridPosition.display (p : GridPosition) : String := p.column ++ toString p.row

/-- `Display for FinalizedGridPositon`: `"{single}"` or `"{a}-{b}"`. -/
def FinalizedGridPositon.display : FinalizedGridPositon → String
  | FinalizedGridPositon.SingleRect single => single.display
  | FinalizedGridPositon.TwoRect a b => a.display ++ "-" ++ b.display

/-- `Display for ProcessedRoad`: `"{name}\t{position}"` (hard-coded tab). -/
def ProcessedRoad.display (r : ProcessedRoad) : String :=
  r.name.display ++ "\t" ++ r.position.display

/-- `Display for UnprocessedRoad`: `"{name}\t{positions joined by tab}"`
(hard-coded tabs). -/
def UnprocessedRoad.display (r : UnprocessedRoad) : String :=
  r.name.display ++ "\t" ++ joinStrings "\t" (r.positions.map GridPosition.display)

/-- The line `ProcessedRoadNames::to_csv` renders for one road:
`format!("{}{}{}", name, delimiter, position)`. -/
def processedLine (delimiter : String) (r : ProcessedRoad) : String :=
  r.name.display ++ delimiter ++ r.position.display

/-- The line `UnprocessedRoadNames::to_csv` renders for one road:
the name, the delimiter, then the positions joined by the delimiter. -/
def unprocessedLine (delimiter : String) (r : UnprocessedRoad) : String :=
  r.name.display ++ delimiter ++ joinStrings delimiter (r.positions.map GridPosition.display)

/-- `ProcessedRoadNames::to_csv`: render each road, join lines with CRLF. -/
def ProcessedRoadNames.to_csv (c : ProcessedRoadNames) (delimiter : String) : String :=
  joinStrings "\r\n" (c.processed.map (processedLine delimiter))

/-- `UnprocessedRoadNames::to_csv`: render each road, join lines with CRLF. -/
def UnprocessedRoadNames.to_csv (c : UnprocessedRoadNames) (delimiter : String) : String :=
  joinStrings "\r\n" (c.unprocessed.map (unprocessedLine delimiter))

/-- Well-formedness of the `BTreeMap`/`BTreeSet` model: keys strictly sorted,
and each position set strictly sorted. This is the datatype invariant Rust's
`BTreeMap<StreetName, BTreeSet<GridPosition>>` maintains by construction. -/
def WFmap (m : List (StreetName × List GridPosition)) : Prop :=
  m.Pairwise (fun a b => a.1 < b.1) ∧ ∀ e ∈ m, e.2.Pairwise (· < ·)

/-- Well-formedness of a deduplicated grouping. -/
def WF (d : DeduplicatedRoads) : Prop := WFmap d.roads

instance : DecidableRel (fun (a b : StreetName × List GridPosition) => a.1 < b.1) :=
  fun a b => inferInstanceAs (Decidable (a.1 < b.1))

instance : DecidableRel (fun (a b : GridPosition) => a < b) :=
  fun a b => inferInstanceAs (Decidable (a < b))

instance (m : List (StreetName × List GridPosition)) : Decidable (WFmap m) :=
  inferInstanceAs (Decidable (_ ∧ _))

instance (d : DeduplicatedRoads) : Decidable (WF d) :=
  inferInstanceAs (Decidable (WFmap d.roads))

/-! ### Pair multiplicity in a grouping -/

/-- How many times the pair `(n, p)` occurs across a raw association list:
the sum, over entries keyed `n`, of the multiplicity of `p` in the entry's
position list. -/
def pairCountM (m : List (StreetName × List GridPosition)) (n : StreetName)
    (p : GridPosition) : Nat :=
  (m.map fun e => if e.1 = n then e.2.count p else 0).sum

/-- How many times the pair `(n, p)` occurs in a deduplicated grouping. -/
def DeduplicatedRoads.pairCount (d : DeduplicatedRoads) (n : StreetName)
    (p : GridPosition) : Nat :=
  pairCountM d.roads n p

/-- What `process` emits into the processed map for a single entry:
`some` exactly when the position set has 1 or 2 elements. -/
def classifyP : StreetName × List GridPosition → Option (StreetName × FinalizedGridPositon)
  | (n, [p]) => some (n, FinalizedGridPositon.SingleRect p)
  | (n, [p, q]) => some (n, FinalizedGridPositon.TwoRect p q)
  | _ => none

/-- What `process` emits into the unprocessed map for a single entry:
`some` exactly when the position set has 3 or more elements. -/
def classifyU : StreetName × List GridPosition → Option (StreetName × List GridPosition)
  | (_, []) => none
  | (_, [_]) => none
  | (_, [_, _]) => none
  | (n, ps) => some (n, ps)

/-- The concrete input of the repository's `test_deduplicate_streets` test:
Valley View Road at A4, A5 and B6. -/
def valleyInput : List InputStreetValue :=
  [InputStreetValue.mk (StreetName.mk "Valley View Road") (GridPosition.mk "A" 4),
   InputStreetValue.mk (StreetName.mk "Valley View Road") (GridPosition.mk "A" 5),
   InputStreetValue.mk (StreetName.mk "Valley View Road") (GridPosition.mk "B" 6)]

/-! ### Order lemmas for `StreetName` and `GridPosition` -/

theorem streetName_lt_def {a b : StreetName} : a < b ↔ a.name < b.name := Iff.rfl

theorem gridPosition_lt_def {a b : GridPosition} :
    a < b ↔ a.column < b.column ∨ (a.column = b.column ∧ a.row < b.row) := Iff.rfl

theorem streetName_lt_irrefl (a : StreetName) : ¬ a < a := by
  simp [streetName_lt_def]

theorem streetName_lt_trans {a b c : StreetName} (h₁ : a < b) (h₂ : b < c) : a < c :=
  lt_trans (streetName_lt_def.mp h₁) (streetName_lt_def.mp h₂)

theorem streetName_lt_trichotomy (a b : StreetName) : a < b ∨ a = b ∨ b < a := by
  obtain ⟨x⟩ := a
  obtain ⟨y⟩ := b
  rcases lt_trichotomy x y with h | h | h
  · exact Or.inl h
  · exact Or.inr (Or.inl (by simp [h]))
  · exact Or.inr (Or.inr h)

theorem streetName_lt_asymm {a b : StreetName} (h : a < b) : ¬ b < a := by
  intro h2
  exact streetName_lt_irrefl a (streetName_lt_trans h h2)

theorem streetName_ne_of_lt {a b : StreetName} (h : a < b) : a ≠ b := by
  rintro rfl
  exact streetName_lt_irrefl a h

theorem gridPosition_lt_irrefl (a : GridPosition) : ¬ a < a := by
  simp [gridPosition_lt_def]

theorem gridPosition_lt_trans {a b c : GridPosition} (h₁ : a < b) (h₂ : b < c) : a < c := by
  rcases gridPosition_lt_def.mp h₁ with h₁ | ⟨e₁, r₁⟩
  · rcases gridPosition_lt_def.mp h₂ with h₂ | ⟨e₂, r₂⟩
    · exact Or.inl (lt_trans h₁ h₂)
    · exact Or.inl (e₂ ▸ h₁)
  · rcases gridPosition_lt_def.mp h₂ with h₂ | ⟨e₂, r₂⟩
    · exact Or.inl (e₁ ▸ h₂)
    · exact Or.inr ⟨e₁.trans e₂, lt_trans r₁ r₂⟩

theorem gridPosition_lt_trichotomy (a b : GridPosition) : a < b ∨ a = b ∨ b < a := by
  obtain ⟨c₁, r₁⟩ := a
  obtain ⟨c₂, r₂⟩ := b
  rcases lt_trichotomy c₁ c₂ with h | h | h
  · exact Or.inl (Or.inl h)
  · rcases Nat.lt_trichotomy r₁ r₂ with h2 | h2 | h2
    · exact Or.inl (Or.inr ⟨h, h2⟩)
    · exact Or.inr (Or.inl (by simp [h, h2]))
    · exact Or.inr (Or.inr (Or.inr ⟨h.symm, h2⟩))
  · exact Or.inr (Or.inr (Or.inl h))

theorem gridPosition_lt_asymm {a b : GridPosition} (h : a < b) : ¬ b < a := by
  intro h2
  exact gridPosition_lt_irrefl a (gridPosition_lt_trans h h2)

theorem gridPosition_ne_of_lt {a b : GridPosition} (h : a < b) : a ≠ b := by
  rintro rfl
  exact gridPosition_lt_irrefl a h


/-! ### Lemmas about `insertPos` (the `BTreeSet` model) -/

theorem mem_insertPos {a p : GridPosition} {ps : List GridPosition} :
    a ∈ insertPos p ps ↔ a = p ∨ a ∈ ps := by
  induction ps with
  | nil => simp [insertPos]
  | cons q qs ih =>
    by_cases h1 : p < q
    · simp [insertPos, h1, List.mem_cons]
    · by_cases h2 : p = q
      · subst h2
        simp [insertPos, h1, List.mem_cons]
      · simp [insertPos, h1, h2, List.mem_cons, ih]
        tauto

theorem sorted_insertPos {p : GridPosition} {ps : List GridPosition}
    (h : ps.Pairwise (· < ·)) : (insertPos p ps).Pairwise (· < ·) := by
  induction ps with
  | nil => simp [insertPos]
  | cons q qs ih =>
    rw [List.pairwise_cons] at h
    obtain ⟨hq, hqs⟩ := h
    by_cases h1 : p < q
    · simp only [insertPos, if_pos h1]
      rw [List.pairwise_cons]
      refine ⟨?_, List.pairwise_cons.mpr ⟨hq, hqs⟩⟩
      intro x hx
      rcases List.mem_cons.mp hx with rfl | hx
      · exact h1
      · exact gridPosition_lt_trans h1 (hq x hx)
    · by_cases h2 : p = q
      · simp only [insertPos, if_neg h1, if_pos h2]
        exact List.pairwise_cons.mpr ⟨hq, hqs⟩
      · simp only [insertPos, if_neg h1, if_neg h2]
        rw [List.pairwise_cons]
        refine ⟨?_, ih hqs⟩
        intro x hx
        rcases mem_insertPos.mp hx with rfl | hx
        · rcases gridPosition_lt_trichotomy x q with h3 | h3 | h3
          · exact absurd h3 h1
          · exact absurd h3 h2
          · exact h3
        · exact hq x hx

theorem nodup_of_sorted {ps : List GridPosition} (h : ps.Pairwise (· < ·)) : ps.Nodup :=
  h.imp fun hab => gridPosition_ne_of_lt hab

theorem insertPos_idem (p : GridPosition) (ps : List GridPosition) :
    insertPos p (insertPos p ps) = insertPos p ps := by
  induction ps with
  | nil => simp [insertPos, gridPosition_lt_irrefl p]
  | cons q qs ih =>
    by_cases h1 : p < q
    · simp [insertPos, h1, gridPosition_lt_irrefl p]
    · by_cases h2 : p = q
      · subst h2
        simp [insertPos, h1]
      · simp [insertPos, h1, h2, ih]

theorem insertPos_comm_of_lt {p q : GridPosition} (hpq : p < q) (ps : List GridPosition) :
    insertPos p (insertPos q ps) = insertPos q (insertPos p ps) := by
  have hqp : ¬ q < p := gridPosition_lt_asymm hpq
  have hne : p ≠ q := gridPosition_ne_of_lt hpq
  have hne' : q ≠ p := hne.symm
  induction ps with
  | nil => simp [insertPos, hpq, hqp, hne, hne']
  | cons h t ih =>
    rcases gridPosition_lt_trichotomy q h with h1 | h1 | h1
    · have h2 : p < h := gridPosition_lt_trans hpq h1
      simp [insertPos, h1, h2, hpq, hqp, hne, hne']
    · subst h1
      simp [insertPos, hpq, hqp, hne, hne', gridPosition_lt_irrefl q]
    · have h1' : ¬ q < h := gridPosition_lt_asymm h1
      have h1ne : q ≠ h := (gridPosition_ne_of_lt h1).symm
      rcases gridPosition_lt_trichotomy p h with h2 | h2 | h2
      · simp [insertPos, h1', h1ne, h2, hqp, hne']
      · subst h2
        simp [insertPos, h1', h1ne, hqp, hne', gridPosition_lt_irrefl p]
      · have h2' : ¬ p < h := gridPosition_lt_asymm h2
        have h2ne : p ≠ h := (gridPosition_ne_of_lt h2).symm
        simp [insertPos, h1', h1ne, h2', h2ne, ih]

theorem insertPos_comm (p q : GridPosition) (ps : List GridPosition) :
    insertPos p (insertPos q ps) = insertPos q (insertPos p ps) := by
  rcases gridPosition_lt_trichotomy p q with h | h | h
  · exact insertPos_comm_of_lt h ps
  · subst h
    rfl
  · exact (insertPos_comm_of_lt h ps).symm

theorem count_insertPos {p : GridPosition} {ps : List GridPosition}
    (h : ps.Pairwise (· < ·)) (p' : GridPosition) :
    (insertPos p ps).count p' = if p' = p then 1 else ps.count p' := by
  have hnd : ps.Nodup := nodup_of_sorted h
  have hnd' : (insertPos p ps).Nodup := nodup_of_sorted (sorted_insertPos h)
  by_cases hp : p' = p
  · subst hp
    simp only [if_pos rfl]
    exact List.count_eq_one_of_mem hnd' (mem_insertPos.mpr (Or.inl rfl))
  · rw [List.count_eq_of_nodup hnd', List.count_eq_of_nodup hnd]
    simp [mem_insertPos, hp]

/-! ### Lemmas about `insertRoad` (the `BTreeMap` entry/insert model) -/

theorem WFmap_cons {e : StreetName × List GridPosition}
    {rest : List (StreetName × List GridPosition)} :
    WFmap (e :: rest) ↔
      (∀ b ∈ rest, e.1 < b.1) ∧ e.2.Pairwise (· < ·) ∧ WFmap rest := by
  simp only [WFmap, List.pairwise_cons, List.mem_cons]
  constructor
  · rintro ⟨⟨hk, hks⟩, hs⟩
    exact ⟨hk, hs e (Or.inl rfl), hks, fun b hb => hs b (Or.inr hb)⟩
  · rintro ⟨hk, he, hks, hs⟩
    refine ⟨⟨hk, hks⟩, ?_⟩
    rintro b (rfl | hb)
    · exact he
    · exact hs b hb

theorem WFmap_nil : WFmap [] := by
  constructor
  · exact List.Pairwise.nil
  · intro e he
    cases he

theorem insertRoad_key {n : StreetName} {p : GridPosition} :
    ∀ {m : List (StreetName × List GridPosition)} {e : StreetName × List GridPosition},
      e ∈ insertRoad n p m → e.1 = n ∨ ∃ e' ∈ m, e.1 = e'.1 := by
  intro m
  induction m with
  | nil =>
    intro e he
    simp only [insertRoad, List.mem_singleton] at he
    subst he
    exact Or.inl rfl
  | cons hd rest ih =>
    obtain ⟨m1, w⟩ := hd
    intro e he
    by_cases h1 : n < m1
    · simp only [insertRoad, if_pos h1, List.mem_cons] at he
      rcases he with rfl | rfl | he
      · exact Or.inl rfl
      · exact Or.inr ⟨(m1, w), List.mem_cons_self _ _, rfl⟩
      · exact Or.inr ⟨e, List.mem_cons_of_mem _ he, rfl⟩
    · by_cases h2 : n = m1
      · simp only [insertRoad, if_neg h1, if_pos h2, List.mem_cons] at he
        rcases he with rfl | he
        · exact Or.inr ⟨(m1, w), List.mem_cons_self _ _, rfl⟩
        · exact Or.inr ⟨e, List.mem_cons_of_mem _ he, rfl⟩
      · simp only [insertRoad, if_neg h1, if_neg h2, List.mem_cons] at he
        rcases he with rfl | he
        · exact Or.inr ⟨(m1, w), List.mem_cons_self _ _, rfl⟩
        · rcases ih he with h | ⟨e', he', hk⟩
          · exact Or.inl h
          · exact Or.inr ⟨e', List.mem_cons_of_mem _ he', hk⟩

theorem WFmap_insertRoad {n : StreetName} {p : GridPosition}
    {m : List (StreetName × List GridPosition)} (h : WFmap m) :
    WFmap (insertRoad n p m) := by
  induction m with
  | nil =>
    simp only [insertRoad]
    rw [WFmap_cons]
    exact ⟨by simp, by simp, WFmap_nil⟩
  | cons hd rest ih =>
    obtain ⟨m1, w⟩ := hd
    rw [WFmap_cons] at h
    obtain ⟨hlt, hw, hrest⟩ := h
    by_cases h1 : n < m1
    · simp only [insertRoad, if_pos h1]
      rw [WFmap_cons]
      refine ⟨?_, by simp, WFmap_cons.mpr ⟨hlt, hw, hrest⟩⟩
      intro b hb
      rcases List.mem_cons.mp hb with rfl | hb
      · exact h1
      · exact streetName_lt_trans h1 (hlt b hb)
    · by_cases h2 : n = m1
      · simp only [insertRoad, if_neg h1, if_pos h2]
        rw [WFmap_cons]
        exact ⟨hlt, sorted_insertPos hw, hrest⟩
      · simp only [insertRoad, if_neg h1, if_neg h2]
        rw [WFmap_cons]
        refine ⟨?_, hw, ih hrest⟩
        intro b hb
        rcases insertRoad_key hb with hbn | ⟨e', he', hk⟩
        · rw [hbn]
          rcases streetName_lt_trichotomy n m1 with h3 | h3 | h3
          · exact absurd h3 h1
          · exact absurd h3 h2
          · exact h3
        · rw [hk]
          exact hlt e' he'

theorem WFmap_foldl {l : List InputStreetValue} :
    ∀ {m}, WFmap m →
      WFmap (l.foldl (fun acc s => insertRoad s.street_name s.position acc) m) := by
  induction l with
  | nil =>
    intro m h
    exact h
  | cons s rest ih =>
    intro m h
    exact ih (WFmap_insertRoad h)

theorem WF_from_streets (streets : List InputStreetValue) :
    WF (DeduplicatedRoads.from_streets streets) :=
  WFmap_foldl WFmap_nil

theorem insertRoad_idem (n : StreetName) (p : GridPosition)
    (m : List (StreetName × List GridPosition)) :
    insertRoad n p (insertRoad n p m) = insertRoad n p m := by
  induction m with
  | nil =>
    simp [insertRoad, insertPos, streetName_lt_irrefl n, gridPosition_lt_irrefl p]
  | cons hd rest ih =>
    obtain ⟨m1, w⟩ := hd
    by_cases h1 : n < m1
    · simp [insertRoad, h1, insertPos, streetName_lt_irrefl n, gridPosition_lt_irrefl p]
    · by_cases h2 : n = m1
      · subst h2
        simp [insertRoad, streetName_lt_irrefl n, insertPos_idem]
      · simp [insertRoad, h1, h2, ih]

theorem insertRoad_comm_same (n : StreetName) (p p' : GridPosition)
    (m : List (StreetName × List GridPosition)) :
    insertRoad n p (insertRoad n p' m) = insertRoad n p' (insertRoad n p m) := by
  induction m with
  | nil =>
    have h : insertPos p [p'] = insertPos p' [p] := insertPos_comm p p' []
    simp [insertRoad, streetName_lt_irrefl n, h]
  | cons hd rest ih =>
    obtain ⟨m1, w⟩ := hd
    by_cases h1 : n < m1
    · have h : insertPos p [p'] = insertPos p' [p] := insertPos_comm p p' []
      simp [insertRoad, h1, streetName_lt_irrefl n, h]
    · by_cases h2 : n = m1
      · subst h2
        simp [insertRoad, streetName_lt_irrefl n, insertPos_comm p p' w]
      · simp [insertRoad, h1, h2, ih]

theorem insertRoad_comm_of_lt {n n' : StreetName} (hnn : n < n') (p p' : GridPosition)
    (m : List (StreetName × List GridPosition)) :
    insertRoad n' p' (insertRoad n p m) = insertRoad n p (insertRoad n' p' m) := by
  have hn'n : ¬ n' < n := streetName_lt_asymm hnn
  have hne : n ≠ n' := streetName_ne_of_lt hnn
  have hne' : n' ≠ n := hne.symm
  induction m with
  | nil =>
    simp [insertRoad, hnn, hn'n, hne, hne']
  | cons hd rest ih =>
    obtain ⟨m1, w⟩ := hd
    rcases streetName_lt_trichotomy n' m1 with h1 | h1 | h1
    · have h2 : n < m1 := streetName_lt_trans hnn h1
      simp [insertRoad, h1, h2, hnn, hn'n, hne, hne']
    · subst h1
      simp [insertRoad, hnn, hn'n, hne, hne', streetName_lt_irrefl n']
    · have h1' : ¬ n' < m1 := streetName_lt_asymm h1
      have h1ne : n' ≠ m1 := (streetName_ne_of_lt h1).symm
      rcases streetName_lt_trichotomy n m1 with h2 | h2 | h2
      · simp [insertRoad, h2, h1', h1ne, hn'n, hne']
      · subst h2
        simp [insertRoad, h1', h1ne, hn'n, hne', streetName_lt_irrefl n]
      · have h2' : ¬ n < m1 := streetName_lt_asymm h2
        have h2ne : n ≠ m1 := (streetName_ne_of_lt h2).symm
        simp [insertRoad, h2', h2ne, h1', h1ne, ih]

theorem insertRoad_comm (n n' : StreetName) (p p' : GridPosition)
    (m : List (StreetName × List GridPosition)) :
    insertRoad n' p' (insertRoad n p m) = insertRoad n p (insertRoad n' p' m) := by
  rcases streetName_lt_trichotomy n n' with h | h | h
  · exact insertRoad_comm_of_lt h p p' m
  · subst h
    exact (insertRoad_comm_same n p p' m).symm
  · exact (insertRoad_comm_of_lt h p' p m).symm

theorem pairCountM_nil {n : StreetName} {p : GridPosition} : pairCountM [] n p = 0 := rfl

theorem pairCountM_cons {e : StreetName × List GridPosition}
    {m : List (StreetName × List GridPosition)} {n : StreetName} {p : GridPosition} :
    pairCountM (e :: m) n p = (if e.1 = n then e.2.count p else 0) + pairCountM m n p := by
  simp [pairCountM]

theorem pairCountM_eq_zero {m : List (StreetName × List GridPosition)}
    {n : StreetName} {p : GridPosition} (h : ∀ e ∈ m, e.1 ≠ n) :
    pairCountM m n p = 0 := by
  induction m with
  | nil => rfl
  | cons e rest ih =>
    rw [pairCountM_cons, if_neg (h e (List.mem_cons_self _ _)),
      ih fun e' he' => h e' (List.mem_cons_of_mem _ he')]

theorem count_singleton_pos (x y : GridPosition) :
    ([x] : List GridPosition).count y = if y = x then 1 else 0 := by
  by_cases h : y = x
  · subst h
    simp
  · simp [List.count_cons, h]

theorem pairCountM_insertRoad {m : List (StreetName × List GridPosition)}
    (hwf : WFmap m) (n n' : StreetName) (p p' : GridPosition) :
    pairCountM (insertRoad n p m) n' p' =
      if n' = n ∧ p' = p then 1 else pairCountM m n' p' := by
  induction m with
  | nil =>
    show pairCountM [(n, [p])] n' p' = _
    rw [pairCountM_cons, pairCountM_nil, Nat.add_zero]
    by_cases h1 : n = n'
    · rw [if_pos h1, count_singleton_pos]
      by_cases h2 : p' = p
      · rw [if_pos h2, if_pos ⟨h1.symm, h2⟩]
      · rw [if_neg h2, if_neg fun hc => h2 hc.2]
    · have h1' : ¬ (n' = n ∧ p' = p) := fun hc => h1 hc.1.symm
      rw [if_neg h1, if_neg h1']
  | cons hd rest ih =>
    obtain ⟨m1, w⟩ := hd
    rw [WFmap_cons] at hwf
    obtain ⟨hlt, hw, hrest⟩ := hwf
    by_cases h1 : n < m1
    · have hgt : ∀ e ∈ (m1, w) :: rest, n < e.1 := by
        rintro e he
        rcases List.mem_cons.mp he with rfl | he
        · exact h1
        · exact streetName_lt_trans h1 (hlt e he)
      have hstep : insertRoad n p ((m1, w) :: rest) = (n, [p]) :: (m1, w) :: rest := by
        simp [insertRoad, h1]
      rw [hstep, pairCountM_cons]
      by_cases h2 : n = n'
      · have hzero : pairCountM ((m1, w) :: rest) n' p' = 0 := by
          apply pairCountM_eq_zero
          intro e he hk
          have hlt' := hgt e he
          rw [hk, ← h2] at hlt'
          exact streetName_lt_irrefl n hlt'
        rw [hzero, Nat.add_zero, if_pos h2, count_singleton_pos]
        by_cases h3 : p' = p
        · rw [if_pos h3, if_pos ⟨h2.symm, h3⟩]
        · rw [if_neg h3, if_neg fun hc => h3 hc.2]
      · have h2' : ¬ (n' = n ∧ p' = p) := fun hc => h2 hc.1.symm
        rw [if_neg h2, if_neg h2', Nat.zero_add]
    · by_cases h2 : n = m1
      · have hstep : insertRoad n p ((m1, w) :: rest) = (m1, insertPos p w) :: rest := by
          simp only [insertRoad]
          rw [if_neg h1, if_pos h2]
        rw [hstep, pairCountM_cons, pairCountM_cons]
        by_cases h3 : m1 = n'
        · have hzero : pairCountM rest n' p' = 0 := by
            apply pairCountM_eq_zero
            intro e he hk
            have hlt' := hlt e he
            rw [hk, ← h3] at hlt'
            exact streetName_lt_irrefl m1 hlt'
          rw [hzero, Nat.add_zero, Nat.add_zero, if_pos h3, if_pos h3,
            count_insertPos hw]
          by_cases h4 : p' = p
          · rw [if_pos h4, if_pos ⟨(h2.trans h3).symm, h4⟩]
          · rw [if_neg h4, if_neg fun hc => h4 hc.2]
        · have h3' : ¬ (n' = n ∧ p' = p) := fun hc => h3 (h2 ▸ hc.1.symm)
          rw [if_neg h3, if_neg h3, if_neg h3']
      · have hstep : insertRoad n p ((m1, w) :: rest) = (m1, w) :: insertRoad n p rest := by
          simp only [insertRoad]
          rw [if_neg h1, if_neg h2]
        rw [hstep, pairCountM_cons, pairCountM_cons, ih hrest]
        by_cases hc : n' = n ∧ p' = p
        · have hm1 : ¬ m1 = n' := by
            intro he
            rcases streetName_lt_trichotomy n m1 with h3 | h3 | h3
            · exact h1 h3
            · exact h2 h3
            · have hmn : m1 = n := he.trans hc.1
              rw [hmn] at h3
              exact streetName_lt_irrefl n h3
          rw [if_pos hc, if_pos hc, if_neg hm1, Nat.zero_add]
        · rw [if_neg hc, if_neg hc]


theorem pairCountM_foldl {n : StreetName} {p : GridPosition} :
    ∀ (l : List InputStreetValue) (m), WFmap m →
      pairCountM (l.foldl (fun acc s => insertRoad s.street_name s.position acc) m) n p =
        if (∃ s ∈ l, s.street_name = n ∧ s.position = p) then 1
        else pairCountM m n p := by
  intro l
  induction l with
  | nil =>
    intro m h
    simp
  | cons s rest ih =>
    intro m h
    rw [List.foldl_cons, ih (insertRoad s.street_name s.position m) (WFmap_insertRoad h),
      pairCountM_insertRoad h]
    by_cases h1 : ∃ s' ∈ rest, s'.street_name = n ∧ s'.position = p
    · rw [if_pos h1, if_pos ?_]
      obtain ⟨s', hs', hp'⟩ := h1
      exact ⟨s', List.mem_cons_of_mem _ hs', hp'⟩
    · rw [if_neg h1]
      by_cases h2 : s.street_name = n ∧ s.position = p
      · rw [if_pos ⟨h2.1.symm, h2.2.symm⟩,
          if_pos ⟨s, List.mem_cons_self _ _, h2⟩]
      · have h2' : ¬ (n = s.street_name ∧ p = s.position) := by
          rintro ⟨rfl, rfl⟩
          exact h2 ⟨rfl, rfl⟩
        rw [if_neg h2', if_neg ?_]
        rintro ⟨s', hs', hp'⟩
        rcases List.mem_cons.mp hs' with rfl | hs'
        · exact h2 hp'
        · exact h1 ⟨s', hs', hp'⟩

/-! ### Characterisation of `process` as a partition of the grouping -/

theorem classifyP_eq_some {e : StreetName × List GridPosition}
    {v : StreetName × FinalizedGridPositon} (h : classifyP e = some v) :
    v.1 = e.1 ∧ (e.2.length = 1 ∨ e.2.length = 2) := by
  obtain ⟨n, ps⟩ := e
  rcases ps with _ | ⟨p, _ | ⟨q, _ | ⟨r, t⟩⟩⟩
  · simp [classifyP] at h
  · rw [show classifyP (n, [p]) = some (n, FinalizedGridPositon.SingleRect p) from rfl] at h
    obtain rfl := Option.some.inj h
    exact ⟨rfl, Or.inl rfl⟩
  · rw [show classifyP (n, [p, q]) = some (n, FinalizedGridPositon.TwoRect p q) from rfl] at h
    obtain rfl := Option.some.inj h
    exact ⟨rfl, Or.inr rfl⟩
  · simp [classifyP] at h

theorem classifyU_eq_some {e : StreetName × List GridPosition}
    {v : StreetName × List GridPosition} (h : classifyU e = some v) :
    v.1 = e.1 ∧ v.2 = e.2 ∧ 3 ≤ e.2.length := by
  obtain ⟨n, ps⟩ := e
  rcases ps with _ | ⟨p, _ | ⟨q, _ | ⟨r, t⟩⟩⟩
  · simp [classifyU] at h
  · simp [classifyU] at h
  · simp [classifyU] at h
  · rw [show classifyU (n, p :: q :: r :: t) = some (n, p :: q :: r :: t) from rfl] at h
    obtain rfl := Option.some.inj h
    refine ⟨rfl, rfl, by simp⟩

theorem insertMap_append {β : Type} (n : StreetName) (v : β)
    (m : List (StreetName × β)) (h : ∀ kv ∈ m, kv.1 < n) :
    insertMap n v m = m ++ [(n, v)] := by
  induction m with
  | nil => rfl
  | cons e rest ih =>
    obtain ⟨m1, w⟩ := e
    have hm1 : m1 < n := h (m1, w) (List.mem_cons_self _ _)
    have h1 : ¬ n < m1 := streetName_lt_asymm hm1
    have h2 : n ≠ m1 := (streetName_ne_of_lt hm1).symm
    simp only [insertMap]
    rw [if_neg h1, if_neg h2, ih fun kv hkv => h kv (List.mem_cons_of_mem _ hkv)]
    exact (List.cons_append _ _ _).symm

theorem processFold :
    ∀ (entries : List (StreetName × List GridPosition))
      (accP : List (StreetName × FinalizedGridPositon))
      (accU : List (StreetName × List GridPosition)),
      (∀ kv ∈ accP, ∀ e ∈ entries, kv.1 < e.1) →
      (∀ kv ∈ accU, ∀ e ∈ entries, kv.1 < e.1) →
      entries.Pairwise (fun a b => a.1 < b.1) →
      entries.foldl processStep (accP, accU) =
        (accP ++ entries.filterMap classifyP, accU ++ entries.filterMap classifyU) := by
  intro entries
  induction entries with
  | nil =>
    intro accP accU _ _ _
    simp
  | cons e rest ih =>
    intro accP accU hP hU hsort
    obtain ⟨n, ps⟩ := e
    rw [List.pairwise_cons] at hsort
    obtain ⟨hhead, htail⟩ := hsort
    rw [List.foldl_cons]
    have hPrest : ∀ kv ∈ accP, ∀ e' ∈ rest, kv.1 < e'.1 :=
      fun kv hkv e' he' => hP kv hkv e' (List.mem_cons_of_mem _ he')
    have hUrest : ∀ kv ∈ accU, ∀ e' ∈ rest, kv.1 < e'.1 :=
      fun kv hkv e' he' => hU kv hkv e' (List.mem_cons_of_mem _ he')
    rcases ps with _ | ⟨p, _ | ⟨q, _ | ⟨r, t⟩⟩⟩
    · have hstep : processStep (accP, accU) (n, ([] : List GridPosition)) = (accP, accU) := rfl
      rw [hstep, ih accP accU hPrest hUrest htail]
      simp [classifyP, classifyU, List.filterMap_cons]
    · have hm : insertMap n (FinalizedGridPositon.SingleRect p) accP
          = accP ++ [(n, FinalizedGridPositon.SingleRect p)] :=
        insertMap_append _ _ _ fun kv hkv => hP kv hkv _ (List.mem_cons_self _ _)
      have hstep : processStep (accP, accU) (n, [p])
          = (accP ++ [(n, FinalizedGridPositon.SingleRect p)], accU) := by
        simp only [processStep]
        rw [hm]
      have hP' : ∀ kv ∈ accP ++ [(n, FinalizedGridPositon.SingleRect p)],
          ∀ e' ∈ rest, kv.1 < e'.1 := by
        intro kv hkv e' he'
        rcases List.mem_append.mp hkv with hkv | hkv
        · exact hPrest kv hkv e' he'
        · rw [List.mem_singleton.mp hkv]
          exact hhead e' he'
      rw [hstep, ih _ accU hP' hUrest htail]
      simp [classifyP, classifyU, List.filterMap_cons, List.append_assoc]
    · have hm : insertMap n (FinalizedGridPositon.TwoRect p q) accP
          = accP ++ [(n, FinalizedGridPositon.TwoRect p q)] :=
        insertMap_append _ _ _ fun kv hkv => hP kv hkv _ (List.mem_cons_self _ _)
      have hstep : processStep (accP, accU) (n, [p, q])
          = (accP ++ [(n, FinalizedGridPositon.TwoRect p q)], accU) := by
        simp only [processStep]
        rw [hm]
      have hP' : ∀ kv ∈ accP ++ [(n, FinalizedGridPositon.TwoRect p q)],
          ∀ e' ∈ rest, kv.1 < e'.1 := by
        intro kv hkv e' he'
        rcases List.mem_append.mp hkv with hkv | hkv
        · exact hPrest kv hkv e' he'
        · rw [List.mem_singleton.mp hkv]
          exact hhead e' he'
      rw [hstep, ih _ accU hP' hUrest htail]
      simp [classifyP, classifyU, List.filterMap_cons, List.append_assoc]
    · have hm : insertMap n (p :: q :: r :: t) accU
          = accU ++ [(n, p :: q :: r :: t)] :=
        insertMap_append _ _ _ fun kv hkv => hU kv hkv _ (List.mem_cons_self _ _)
      have hstep : processStep (accP, accU) (n, p :: q :: r :: t)
          = (accP, accU ++ [(n, p :: q :: r :: t)]) := by
        simp only [processStep]
        rw [hm]
      have hU' : ∀ kv ∈ accU ++ [(n, p :: q :: r :: t)],
          ∀ e' ∈ rest, kv.1 < e'.1 := by
        intro kv hkv e' he'
        rcases List.mem_append.mp hkv with hkv | hkv
        · exact hUrest kv hkv e' he'
        · rw [List.mem_singleton.mp hkv]
          exact hhead e' he'
      rw [hstep, ih accP _ hPrest hU' htail]
      simp [classifyP, classifyU, List.filterMap_cons, List.append_assoc]

theorem process_eq {d : DeduplicatedRoads}
    (h : d.roads.Pairwise (fun a b => a.1 < b.1)) :
    d.process =
      (ProcessedRoadNames.mk
        ((d.roads.filterMap classifyP).map fun kv => ProcessedRoad.mk kv.1 kv.2),
       UnprocessedRoadNames.mk
        ((d.roads.filterMap classifyU).map fun kv => UnprocessedRoad.mk kv.1 kv.2)) := by
  simp only [DeduplicatedRoads.process]
  rw [processFold d.roads [] []
    (fun kv hkv => absurd hkv (List.not_mem_nil kv))
    (fun kv hkv => absurd hkv (List.not_mem_nil kv)) h]
  simp

theorem key_unique {m : List (StreetName × List GridPosition)}
    (h : m.Pairwise (fun a b => a.1 < b.1)) {n : StreetName} {ps ps' : List GridPosition}
    (h1 : (n, ps) ∈ m) (h2 : (n, ps') ∈ m) : ps = ps' := by
  induction m with
  | nil => cases h1
  | cons e rest ih =>
    obtain ⟨k, w⟩ := e
    rw [List.pairwise_cons] at h
    obtain ⟨hhead, htail⟩ := h
    rcases List.mem_cons.mp h1 with he1 | h1
    · rcases List.mem_cons.mp h2 with he2 | h2
      · injection he1 with hk1 hw1
        injection he2 with hk2 hw2
        rw [hw1, hw2]
      · injection he1 with hk1 hw1
        have hlt : k < n := hhead (n, ps') h2
        rw [hk1] at hlt
        exact absurd hlt (streetName_lt_irrefl k)
    · rcases List.mem_cons.mp h2 with he2 | h2
      · injection he2 with hk2 hw2
        have hlt : k < n := hhead (n, ps) h1
        rw [hk2] at hlt
        exact absurd hlt (streetName_lt_irrefl k)
      · exact ih htail h1 h2

/-! ### String-level lemmas for the formatter -/

theorem string_append_left_cancel {a b c : String} (h : a ++ b = a ++ c) : b = c := by
  apply String.ext
  have hd := congrArg String.data h
  rw [String.data_append, String.data_append] at hd
  exact List.append_cancel_left hd

theorem string_append_right_cancel {a b c : String} (h : a ++ c = b ++ c) : a = b := by
  apply String.ext
  have hd := congrArg String.data h
  rw [String.data_append, String.data_append] at hd
  exact List.append_cancel_right hd

theorem joinStrings_nil {sep : String} : joinStrings sep [] = "" := rfl

theorem joinStrings_singleton {sep s : String} : joinStrings sep [s] = s := rfl

theorem joinStrings_cons_cons {sep s s' : String} {t : List String} :
    joinStrings sep (s :: s' :: t) = s ++ sep ++ joinStrings sep (s' :: t) := rfl

theorem joinStrings_length (sep : String) (L : List String) :
    (joinStrings sep L).length = (L.map String.length).sum + (L.length - 1) * sep.length := by
  induction L with
  | nil => simp [joinStrings_nil]
  | cons s t ih =>
    rcases t with _ | ⟨s', t'⟩
    · simp [joinStrings_singleton]
    · rw [joinStrings_cons_cons, String.length_append, String.length_append, ih]
      simp only [List.map_cons, List.sum_cons, List.length_cons, Nat.add_sub_cancel]
      rw [Nat.add_mul, Nat.one_mul]
      omega

/-- With any delimiter other than the tab, the `to_csv` line for a processed
road differs from its `Display` rendering (which hard-codes the tab). -/
theorem processedLine_ne_display {d : String} (hd : d ≠ "\t") (r : ProcessedRoad) :
    ProcessedRoad.display r ≠ processedLine d r := by
  intro h
  apply hd
  have h1 : (r.name.display ++ "\t") ++ r.position.display
      = (r.name.display ++ d) ++ r.position.display := h
  have h2 := string_append_right_cancel h1
  exact (string_append_left_cancel h2).symm

/-- With any delimiter other than the tab, the `to_csv` line for an
unprocessed road differs from its `Display` rendering. -/
theorem unprocessedLine_ne_display {d : String} (hd : d ≠ "\t") (s : UnprocessedRoad) :
    UnprocessedRoad.display s ≠ unprocessedLine d s := by
  intro h
  apply hd
  have h1 : s.name.display ++ (("\t" : String) ++ joinStrings "\t" (s.positions.map GridPosition.display))
      = s.name.display ++ (d ++ joinStrings d (s.positions.map GridPosition.display)) := by
    rw [← String.append_assoc, ← String.append_assoc]
    exact h
  have h2 := string_append_left_cancel h1
  rcases hL : s.positions.map GridPosition.display with _ | ⟨x, L'⟩
  · rw [hL] at h2
    simp only [joinStrings_nil, String.append_empty] at h2
    exact h2.symm
  · rw [hL] at h2
    have hlen := congrArg String.length h2
    rw [String.length_append, String.length_append, joinStrings_length, joinStrings_length] at hlen
    simp only [List.length_cons, Nat.add_sub_cancel] at hlen
    have htab : ("\t" : String).length = 1 := rfl
    rw [htab, Nat.mul_one] at hlen
    have hfact : (L'.length + 1) * 1 = (L'.length + 1) * d.length := by
      rw [Nat.add_mul, Nat.add_mul, Nat.one_mul, Nat.one_mul]
      omega
    have hdlen : 1 = d.length := Nat.eq_of_mul_eq_mul_left (Nat.succ_pos _) hfact
    obtain ⟨c, hc⟩ := List.length_eq_one.mp (show d.data.length = 1 from hdlen.symm)
    have hdat := congrArg String.data h2
    rw [String.data_append, String.data_append, hc] at hdat
    have hhd : '\t' = c := by
      have := congrArg (fun l => l.head?) hdat
      simpa using this
    apply String.ext
    rw [hc, ← hhd]

/-! ### Name-membership characterisation of the two output collections -/

theorem mem_processed_iff {d : DeduplicatedRoads} (h : WF d) (n : StreetName) :
    (∃ r ∈ (d.process).1.processed, r.name = n) ↔
      ∃ e ∈ d.roads, e.1 = n ∧ (e.2.length = 1 ∨ e.2.length = 2) := by
  obtain ⟨hkeys, hsets⟩ := h
  rw [process_eq hkeys]
  constructor
  · rintro ⟨r, hr, hname⟩
    simp only [List.mem_map] at hr
    obtain ⟨kv, hkv, rfl⟩ := hr
    rw [List.mem_filterMap] at hkv
    obtain ⟨e, he, hce⟩ := hkv
    obtain ⟨hk, hlen⟩ := classifyP_eq_some hce
    refine ⟨e, he, ?_, hlen⟩
    rw [← hk]
    exact hname
  · rintro ⟨e, he, hk, hlen⟩
    obtain ⟨k, ps⟩ := e
    rcases ps with _ | ⟨p, _ | ⟨q, _ | ⟨r', t⟩⟩⟩
    · simp at hlen
    · refine ⟨ProcessedRoad.mk k (FinalizedGridPositon.SingleRect p), ?_, hk⟩
      simp only [List.mem_map]
      exact ⟨(k, FinalizedGridPositon.SingleRect p),
        List.mem_filterMap.mpr ⟨(k, [p]), he, rfl⟩, rfl⟩
    · refine ⟨ProcessedRoad.mk k (FinalizedGridPositon.TwoRect p q), ?_, hk⟩
      simp only [List.mem_map]
      exact ⟨(k, FinalizedGridPositon.TwoRect p q),
        List.mem_filterMap.mpr ⟨(k, [p, q]), he, rfl⟩, rfl⟩
    · rcases hlen with hlen | hlen <;> simp at hlen

theorem mem_unprocessed_iff {d : DeduplicatedRoads} (h : WF d) (n : StreetName) :
    (∃ r ∈ (d.process).2.unprocessed, r.name = n) ↔
      ∃ e ∈ d.roads, e.1 = n ∧ 3 ≤ e.2.length := by
  obtain ⟨hkeys, hsets⟩ := h
  rw [process_eq hkeys]
  constructor
  · rintro ⟨r, hr, hname⟩
    simp only [List.mem_map] at hr
    obtain ⟨kv, hkv, rfl⟩ := hr
    rw [List.mem_filterMap] at hkv
    obtain ⟨e, he, hce⟩ := hkv
    obtain ⟨hk, hv, hlen⟩ := classifyU_eq_some hce
    refine ⟨e, he, ?_, hlen⟩
    rw [← hk]
    exact hname
  · rintro ⟨e, he, hk, hlen⟩
    obtain ⟨k, ps⟩ := e
    rcases ps with _ | ⟨p, _ | ⟨q, _ | ⟨r', t⟩⟩⟩
    · simp at hlen
    · simp at hlen
    · simp at hlen
    · refine ⟨UnprocessedRoad.mk k (p :: q :: r' :: t), ?_, hk⟩
      simp only [List.mem_map]
      exact ⟨(k, p :: q :: r' :: t),
        List.mem_filterMap.mpr ⟨(k, p :: q :: r' :: t), he, rfl⟩, rfl⟩

/-! ### Claim theorems -/

/-- C1. `process` routes each `(street name, position set)` entry of a
well-formed grouping by the set's cardinality: a singleton set `[p]` yields a
`ProcessedRoad` with `SingleRect p`; a two-element set `[p, q]` yields a
`ProcessedRoad` with `TwoRect p q` where `p < q` (the smaller first); a set of
3 or more positions yields an `UnprocessedRoad` with all positions in strictly
ascending order; an empty set contributes to neither output collection. -/
theorem process_cardinality_routing (d : DeduplicatedRoads) (h : WF d)
    (n : StreetName) (ps : List GridPosition) (hmem : (n, ps) ∈ d.roads) :
    (∀ p, ps = [p] →
      ProcessedRoad.mk n (FinalizedGridPositon.SingleRect p) ∈ (d.process).1.processed) ∧
    (∀ p q, ps = [p, q] →
      p < q ∧
        ProcessedRoad.mk n (FinalizedGridPositon.TwoRect p q) ∈ (d.process).1.processed) ∧
    (3 ≤ ps.length →
      ps.Pairwise (· < ·) ∧ UnprocessedRoad.mk n ps ∈ (d.process).2.unprocessed) ∧
    (ps = [] →
      (∀ r ∈ (d.process).1.processed, r.name ≠ n) ∧
      (∀ r ∈ (d.process).2.unprocessed, r.name ≠ n)) := by
  obtain ⟨hkeys, hsets⟩ := h
  refine ⟨?_, ?_, ?_, ?_⟩
  · rintro p rfl
    rw [process_eq hkeys]
    simp only [List.mem_map]
    exact ⟨(n, FinalizedGridPositon.SingleRect p),
      List.mem_filterMap.mpr ⟨(n, [p]), hmem, rfl⟩, rfl⟩
  · rintro p q rfl
    have hsort := hsets (n, [p, q]) hmem
    rw [List.pairwise_cons] at hsort
    refine ⟨hsort.1 q (List.mem_cons_self _ _), ?_⟩
    rw [process_eq hkeys]
    simp only [List.mem_map]
    exact ⟨(n, FinalizedGridPositon.TwoRect p q),
      List.mem_filterMap.mpr ⟨(n, [p, q]), hmem, rfl⟩, rfl⟩
  · intro hlen
    refine ⟨hsets (n, ps) hmem, ?_⟩
    rcases ps with _ | ⟨p, _ | ⟨q, _ | ⟨r', t⟩⟩⟩
    · simp at hlen
    · simp at hlen
    · simp at hlen
    · rw [process_eq hkeys]
      simp only [List.mem_map]
      exact ⟨(n, p :: q :: r' :: t),
        List.mem_filterMap.mpr ⟨(n, p :: q :: r' :: t), hmem, rfl⟩, rfl⟩
  · rintro rfl
    constructor
    · intro r hr hname
      have hex : ∃ r' ∈ (d.process).1.processed, r'.name = n := ⟨r, hr, hname⟩
      obtain ⟨e, he, hk, hlen⟩ := (mem_processed_iff ⟨hkeys, hsets⟩ n).mp hex
      obtain ⟨k, w⟩ := e
      subst hk
      have := key_unique hkeys hmem he
      rw [← this] at hlen
      rcases hlen with hlen | hlen <;> simp at hlen
    · intro r hr hname
      have hex : ∃ r' ∈ (d.process).2.unprocessed, r'.name = n := ⟨r, hr, hname⟩
      obtain ⟨e, he, hk, hlen⟩ := (mem_unprocessed_iff ⟨hkeys, hsets⟩ n).mp hex
      obtain ⟨k, w⟩ := e
      subst hk
      have := key_unique hkeys hmem he
      rw [← this] at hlen
      simp at hlen

/-- C1 witness: a concrete well-formed grouping with a one-position street, a
two-position street and a three-position street, exercising the theorem on the
three-position entry. -/
theorem process_cardinality_routing_witness :
    WF (DeduplicatedRoads.mk
      [(StreetName.mk "Abbey Road", [GridPosition.mk "A" 4, GridPosition.mk "A" 5, GridPosition.mk "B" 6])]) ∧
    ((StreetName.mk "Abbey Road", [GridPosition.mk "A" 4, GridPosition.mk "A" 5, GridPosition.mk "B" 6]) ∈
      (DeduplicatedRoads.mk
        [(StreetName.mk "Abbey Road", [GridPosition.mk "A" 4, GridPosition.mk "A" 5, GridPosition.mk "B" 6])]).roads) ∧
    (3 ≤ ([GridPosition.mk "A" 4, GridPosition.mk "A" 5, GridPosition.mk "B" 6] : List GridPosition).length →
      ([GridPosition.mk "A" 4, GridPosition.mk "A" 5, GridPosition.mk "B" 6] : List GridPosition).Pairwise (· < ·) ∧
      UnprocessedRoad.mk (StreetName.mk "Abbey Road")
          [GridPosition.mk "A" 4, GridPosition.mk "A" 5, GridPosition.mk "B" 6] ∈
        ((DeduplicatedRoads.mk
          [(StreetName.mk "Abbey Road", [GridPosition.mk "A" 4, GridPosition.mk "A" 5, GridPosition.mk "B" 6])]).process).2.unprocessed) :=
  ⟨by decide, by decide,
    (process_cardinality_routing _ (by decide) _ _ (by decide)).2.2.1⟩

/-- C5. For a well-formed grouping, a street name appears in one of the two
collections returned by `process` exactly when it keys a non-empty position
set in the grouping — and it never appears in both collections. -/
theorem process_partition_complete (d : DeduplicatedRoads) (h : WF d) (n : StreetName) :
    ((∃ ps, (n, ps) ∈ d.roads ∧ ps ≠ []) ↔
      ((∃ r ∈ (d.process).1.processed, r.name = n) ∨
       (∃ r ∈ (d.process).2.unprocessed, r.name = n))) ∧
    ¬ ((∃ r ∈ (d.process).1.processed, r.name = n) ∧
       (∃ r ∈ (d.process).2.unprocessed, r.name = n)) := by
  constructor
  · constructor
    · rintro ⟨ps, hmem, hne⟩
      have hpos : 0 < ps.length := List.length_pos.mpr hne
      by_cases hsmall : ps.length ≤ 2
      · left
        rw [mem_processed_iff h]
        exact ⟨(n, ps), hmem, rfl, by show ps.length = 1 ∨ ps.length = 2; omega⟩
      · right
        rw [mem_unprocessed_iff h]
        exact ⟨(n, ps), hmem, rfl, by show 3 ≤ ps.length; omega⟩
    · rintro (hex | hex)
      · obtain ⟨e, he, hk, hlen⟩ := (mem_processed_iff h n).mp hex
        obtain ⟨k, w⟩ := e
        subst hk
        refine ⟨w, he, ?_⟩
        intro hw
        subst hw
        rcases hlen with hlen | hlen <;> simp at hlen
      · obtain ⟨e, he, hk, hlen⟩ := (mem_unprocessed_iff h n).mp hex
        obtain ⟨k, w⟩ := e
        subst hk
        refine ⟨w, he, ?_⟩
        intro hw
        subst hw
        simp at hlen
  · rintro ⟨hexP, hexU⟩
    obtain ⟨e1, he1, hk1, hlen1⟩ := (mem_processed_iff h n).mp hexP
    obtain ⟨e2, he2, hk2, hlen2⟩ := (mem_unprocessed_iff h n).mp hexU
    obtain ⟨k1, w1⟩ := e1
    obtain ⟨k2, w2⟩ := e2
    have hk1' : k1 = n := hk1
    have hk2' : k2 = n := hk2
    have hlen1' : w1.length = 1 ∨ w1.length = 2 := hlen1
    have hlen2' : 3 ≤ w2.length := hlen2
    subst hk1'
    subst hk2'
    have hw : w1 = w2 := key_unique h.1 he1 he2
    rw [hw] at hlen1'
    omega

/-- C5 witness: a concrete grouping with one single-position street. -/
theorem process_partition_complete_witness :
    WF (DeduplicatedRoads.mk [(StreetName.mk "Canterbury Road", [GridPosition.mk "A" 9])]) ∧
    ((∃ ps, (StreetName.mk "Canterbury Road", ps) ∈
        (DeduplicatedRoads.mk [(StreetName.mk "Canterbury Road", [GridPosition.mk "A" 9])]).roads ∧ ps ≠ []) ↔
      ((∃ r ∈ ((DeduplicatedRoads.mk
          [(StreetName.mk "Canterbury Road", [GridPosition.mk "A" 9])]).process).1.processed,
            r.name = StreetName.mk "Canterbury Road") ∨
       (∃ r ∈ ((DeduplicatedRoads.mk
          [(StreetName.mk "Canterbury Road", [GridPosition.mk "A" 9])]).process).2.unprocessed,
            r.name = StreetName.mk "Canterbury Road"))) :=
  ⟨by decide, (process_partition_complete _ (by decide) _).1⟩

/-- C6. For a well-formed grouping, both collections returned by `process`
list their roads in strictly ascending street-name order. -/
theorem process_output_sorted (d : DeduplicatedRoads) (h : WF d) :
    ((d.process).1.processed.Pairwise fun a b => a.name < b.name) ∧
    ((d.process).2.unprocessed.Pairwise fun a b => a.name < b.name) := by
  obtain ⟨hkeys, hsets⟩ := h
  rw [process_eq hkeys]
  constructor
  · rw [List.pairwise_map, List.pairwise_filterMap]
    refine hkeys.imp ?_
    intro a b hab v hv v' hv'
    have h1 := classifyP_eq_some hv
    have h2 := classifyP_eq_some hv'
    show v.1 < v'.1
    rw [h1.1, h2.1]
    exact hab
  · rw [List.pairwise_map, List.pairwise_filterMap]
    refine hkeys.imp ?_
    intro a b hab v hv v' hv'
    have h1 := classifyU_eq_some hv
    have h2 := classifyU_eq_some hv'
    show v.1 < v'.1
    rw [h1.1, h2.1]
    exact hab

/-- C6 witness: a concrete two-street grouping. -/
theorem process_output_sorted_witness :
    WF (DeduplicatedRoads.mk
      [(StreetName.mk "Abbey Road", [GridPosition.mk "A" 1]),
       (StreetName.mk "Baker Street", [GridPosition.mk "B" 2])]) ∧
    (((DeduplicatedRoads.mk
      [(StreetName.mk "Abbey Road", [GridPosition.mk "A" 1]),
       (StreetName.mk "Baker Street", [GridPosition.mk "B" 2])]).process).1.processed.Pairwise
        fun a b => a.name < b.name) :=
  ⟨by decide, (process_output_sorted _ (by decide)).1⟩

/-- C2. The ordering on `GridPosition` is lexicographic: column label first
(string order), then the row compared as a number. In particular, for every
column `c`, `(c, 2) < (c, 10)`, while the rendered strings "A10" and "A2"
compare the other way around. -/
theorem gridPosition_order_lex (a b : GridPosition) (c : String) :
    (a < b ↔ a.column < b.column ∨ (a.column = b.column ∧ a.row < b.row)) ∧
    GridPosition.mk c 2 < GridPosition.mk c 10 ∧
    ¬ GridPosition.mk "A" 10 < GridPosition.mk "A" 2 ∧
    (GridPosition.mk "A" 10).display < (GridPosition.mk "A" 2).display :=
  ⟨Iff.rfl, Or.inr ⟨rfl, (by decide : (2 : Nat) < 10)⟩, by decide, by decide⟩

/-- C3. `from_streets` deduplicates: each distinct `(street name, position)`
pair occurs exactly once in the grouping — once if it occurs anywhere in the
input, zero times otherwise — and duplicating any record of the input leaves
the grouping unchanged. -/
theorem from_streets_dedup_exactly_once (streets l₁ l₂ : List InputStreetValue)
    (s : InputStreetValue) (n : StreetName) (p : GridPosition) :
    (DeduplicatedRoads.from_streets streets).pairCount n p
        = (if ∃ i ∈ streets, i.street_name = n ∧ i.position = p then 1 else 0) ∧
    DeduplicatedRoads.from_streets (l₁ ++ s :: s :: l₂)
        = DeduplicatedRoads.from_streets (l₁ ++ s :: l₂) := by
  constructor
  · have h := @pairCountM_foldl n p streets [] WFmap_nil
    rw [pairCountM_nil] at h
    exact h
  · show DeduplicatedRoads.mk _ = DeduplicatedRoads.mk _
    congr 1
    rw [List.foldl_append, List.foldl_append, List.foldl_cons, List.foldl_cons,
      List.foldl_cons]
    congr 1
    exact insertRoad_idem _ _ _

/-- C4. Permuting the input sequence leaves the deduplicated grouping — and
therefore the classified collections and both rendered CSV strings —
unchanged. -/
theorem from_streets_perm_invariant (l₁ l₂ : List InputStreetValue)
    (h : l₁.Perm l₂) (delimiter : String) :
    DeduplicatedRoads.from_streets l₁ = DeduplicatedRoads.from_streets l₂ ∧
    (DeduplicatedRoads.from_streets l₁).process
        = (DeduplicatedRoads.from_streets l₂).process ∧
    ((DeduplicatedRoads.from_streets l₁).process).1.to_csv delimiter
        = ((DeduplicatedRoads.from_streets l₂).process).1.to_csv delimiter ∧
    ((DeduplicatedRoads.from_streets l₁).process).2.to_csv delimiter
        = ((DeduplicatedRoads.from_streets l₂).process).2.to_csv delimiter := by
  have heq : DeduplicatedRoads.from_streets l₁ = DeduplicatedRoads.from_streets l₂ := by
    show DeduplicatedRoads.mk _ = DeduplicatedRoads.mk _
    congr 1
    exact h.foldl_eq'
      (fun x _ y _ z => insertRoad_comm x.street_name y.street_name x.position y.position z) []
  exact ⟨heq, by rw [heq], by rw [heq], by rw [heq]⟩

/-- C4 witness: swapping a concrete two-record input changes nothing. -/
theorem from_streets_perm_invariant_witness :
    (([InputStreetValue.mk (StreetName.mk "Abbey Road") (GridPosition.mk "A" 1),
       InputStreetValue.mk (StreetName.mk "Baker Street") (GridPosition.mk "B" 2)] :
        List InputStreetValue).Perm
      [InputStreetValue.mk (StreetName.mk "Baker Street") (GridPosition.mk "B" 2),
       InputStreetValue.mk (StreetName.mk "Abbey Road") (GridPosition.mk "A" 1)]) ∧
    DeduplicatedRoads.from_streets
        [InputStreetValue.mk (StreetName.mk "Abbey Road") (GridPosition.mk "A" 1),
         InputStreetValue.mk (StreetName.mk "Baker Street") (GridPosition.mk "B" 2)]
      = DeduplicatedRoads.from_streets
        [InputStreetValue.mk (StreetName.mk "Baker Street") (GridPosition.mk "B" 2),
         InputStreetValue.mk (StreetName.mk "Abbey Road") (GridPosition.mk "A" 1)] :=
  ⟨List.Perm.swap _ _ _,
    (from_streets_perm_invariant _ _ (List.Perm.swap _ _ _) "\t").1⟩

/-- C7. Both `to_csv` renderers produce one line per road and join consecutive
lines with exactly `"\r\n"`: an empty collection renders as `""`, and a
non-empty collection renders as its first line followed — only when further
roads remain — by `"\r\n"` and the rendering of the rest. No leading or
trailing terminator and no trailing delimiter is ever appended. -/
theorem to_csv_crlf_join (r : ProcessedRoad) (rs : List ProcessedRoad)
    (s : UnprocessedRoad) (ss : List UnprocessedRoad) (d : String) :
    (ProcessedRoadNames.mk []).to_csv d = "" ∧
    (UnprocessedRoadNames.mk []).to_csv d = "" ∧
    (ProcessedRoadNames.mk (r :: rs)).to_csv d
      = processedLine d r ++
          (if rs = [] then "" else "\r\n" ++ (ProcessedRoadNames.mk rs).to_csv d) ∧
    (UnprocessedRoadNames.mk (s :: ss)).to_csv d
      = unprocessedLine d s ++
          (if ss = [] then "" else "\r\n" ++ (UnprocessedRoadNames.mk ss).to_csv d) := by
  refine ⟨rfl, rfl, ?_, ?_⟩
  · rcases rs with _ | ⟨r', rs'⟩
    · simp [ProcessedRoadNames.to_csv, joinStrings]
    · simp only [ProcessedRoadNames.to_csv, List.map_cons, joinStrings_cons_cons,
        if_neg (List.cons_ne_nil r' rs')]
      rw [String.append_assoc]
  · rcases ss with _ | ⟨s', ss'⟩
    · simp [UnprocessedRoadNames.to_csv, joinStrings]
    · simp only [UnprocessedRoadNames.to_csv, List.map_cons, joinStrings_cons_cons,
        if_neg (List.cons_ne_nil s' ss')]
      rw [String.append_assoc]

/-- C8. Rendering a `SingleRect` yields exactly its position's text (column
label directly followed by the decimal row, no separator); rendering a
`TwoRect a b` yields the text of `a`, a literal hyphen, then the text of `b`;
in particular `TwoRect A9 I5` renders to "A9-I5". -/
theorem finalized_display_render (p a b : GridPosition) :
    (FinalizedGridPositon.SingleRect p).display = p.column ++ toString p.row ∧
    (FinalizedGridPositon.TwoRect a b).display
      = (a.column ++ toString a.row) ++ "-" ++ (b.column ++ toString b.row) ∧
    (FinalizedGridPositon.TwoRect (GridPosition.mk "A" 9) (GridPosition.mk "I" 5)).display
      = "A9-I5" :=
  ⟨rfl, rfl, by decide⟩

/-- C9. On the input [("Valley View Road","A",4), ("Valley View Road","A",5),
("Valley View Road","B",6)], `from_streets` groups all three positions under
the one street, `process` classifies it as unprocessed (three positions,
nothing processed), and `to_csv "\t"` renders exactly
"Valley View Road\tA4\tA5\tB6". -/
theorem valley_view_road_roundtrip :
    DeduplicatedRoads.from_streets valleyInput
      = DeduplicatedRoads.mk
          [(StreetName.mk "Valley View Road",
            [GridPosition.mk "A" 4, GridPosition.mk "A" 5, GridPosition.mk "B" 6])] ∧
    ((DeduplicatedRoads.from_streets valleyInput).process).1.processed = [] ∧
    ((DeduplicatedRoads.from_streets valleyInput).process).2.unprocessed
      = [UnprocessedRoad.mk (StreetName.mk "Valley View Road")
          [GridPosition.mk "A" 4, GridPosition.mk "A" 5, GridPosition.mk "B" 6]] ∧
    ((DeduplicatedRoads.from_streets valleyInput).process).2.to_csv "\t"
      = "Valley View Road\tA4\tA5\tB6" :=
  ⟨by decide, by decide, by decide, by decide⟩

/-- C10. The `Display` renderings of `ProcessedRoad` and `UnprocessedRoad`
hard-code a tab as separator: `to_csv "\t"` coincides with joining the
individual `Display` renderings by CRLF, while for any delimiter `d ≠ "\t"`
every road's `Display` rendering differs from its `to_csv` line (every line
carries the delimiter, i.e. has at least two fields). -/
theorem display_hardcoded_tab (c : ProcessedRoadNames) (u : UnprocessedRoadNames)
    (d : String) (r : ProcessedRoad) (s : UnprocessedRoad) (hd : d ≠ "\t") :
    c.to_csv "\t" = joinStrings "\r\n" (c.processed.map ProcessedRoad.display) ∧
    u.to_csv "\t" = joinStrings "\r\n" (u.unprocessed.map UnprocessedRoad.display) ∧
    ProcessedRoad.display r ≠ processedLine d r ∧
    UnprocessedRoad.display s ≠ unprocessedLine d s :=
  ⟨rfl, rfl, processedLine_ne_display hd r, unprocessedLine_ne_display hd s⟩

/-- C10 witness: with delimiter "," the `Display` rendering of a concrete road
differs from its `to_csv` line. -/
theorem display_hardcoded_tab_witness :
    ProcessedRoad.display
        (ProcessedRoad.mk (StreetName.mk "Canterbury Road")
          (FinalizedGridPositon.SingleRect (GridPosition.mk "A" 9)))
      ≠ processedLine ","
        (ProcessedRoad.mk (StreetName.mk "Canterbury Road")
          (FinalizedGridPositon.SingleRect (GridPosition.mk "A" 9))) :=
  (display_hardcoded_tab (ProcessedRoadNames.mk []) (UnprocessedRoadNames.mk []) ","
    (ProcessedRoad.mk (StreetName.mk "Canterbury Road")
      (FinalizedGridPositon.SingleRect (GridPosition.mk "A" 9)))
    (UnprocessedRoad.mk (StreetName.mk "Canterbury Road") []) (by decide)).2.2.1

end Roads2Csv
